import Mathlib

/-!
Shallow embedding of `src/main.rs` of the url-shortener-rust repository.

The encoder `generate_short_url` builds the fixed 62-symbol alphabet,
shuffles it with a ChaCha8 RNG seeded by the blake3 hash of the secret key
(both from external crates), base-62 encodes the identifier with the
permuted alphabet and reverses the digit list.  The RNG layer
(blake3 + ChaCha8 + the `gen_index` sampler of `rand`) is third-party library code, not
code of this repository; it is embedded as a `choices : Nat → Nat` stream:
`choices i % (i + 1)` is the in-range index the RNG hands to
`slice.swap(i, gen_index(rng, i + 1))` at step `i` of the Fisher–Yates
shuffle.  Every key determines one such stream, and every stream is
realisable, so properties proved for all streams hold for every secret key.

The HTTP handlers `create_shorten_url` and `redirect_to_long_url` are
embedded as pure state-passing functions over an explicit store model
(a list of rows of the Cassandra `urls` table), with the outcomes of the
external Redis and Cassandra calls passed in as parameters.
-/

namespace UrlShortener

/-- Line 36: the ordered base-62 alphabet literal. -/
def base_alphabet : List Char :=
  "abcdefghijklmnopqrstuvwxyzABCDEFGHIJKLMNOPQRSTUVWXYZ0123456789".toList

/-- Embedding of `Vec::swap(i, j)`: exchange positions `i` and `j`.  In the source both
indices are always in range; out-of-range indices leave the list unchanged. -/
def listSwap (l : List Char) (i j : Nat) : List Char :=
  match l.get? i, l.get? j with
  | some a, some b => (l.set i b).set j a
  | _, _ => l

/-- The loop of `SliceRandom::shuffle` from the `rand` crate:
`for i in (1..len).rev() { self.swap(i, gen_index(rng, i + 1)) }`,
counting `i` down from `len - 1` to `1`. -/
def shuffleGo (choices : Nat → Nat) : List Char → Nat → List Char
  | l, 0 => l
  | l, i + 1 => shuffleGo choices (listSwap l (i + 1) (choices (i + 1) % (i + 2))) i

/-- Line 44: `alphabet.shuffle(&mut rng)` — Fisher–Yates over the whole list,
driven by the RNG stream `choices`. -/
def shuffle (choices : Nat → Nat) (l : List Char) : List Char :=
  shuffleGo choices l (l.length - 1)

/-- Lines 47–52: the base-62 digit loop
`while id > 0 { encoded.push(alphabet[(id % 62) as usize]); id /= 62; }`,
emitting the least-significant digit first. -/
def encodeLoop (alphabet : List Char) (id : Nat) : List Char :=
  if h : id = 0 then []
  else alphabet.getD (id % 62) 'a' :: encodeLoop alphabet (id / 62)
  decreasing_by exact Nat.div_lt_self (Nat.pos_of_ne_zero h) (by decide)

/-- Lines 34–59: `generate_short_url(secret_key, id)`.  The secret key enters
only through the RNG stream `choices` it determines (see the header comment);
everything after the shuffle is the source verbatim: encode in base 62,
substitute `alphabet[0]` for an empty digit string, reverse, collect. -/
def generate_short_url (choices : Nat → Nat) (id : Nat) : String :=
  let alphabet := shuffle choices base_alphabet
  let encoded := encodeLoop alphabet id
  let encoded := if encoded.isEmpty then [alphabet.getD 0 'a'] else encoded
  String.mk encoded.reverse

/-- Base-62 value of a little-endian digit list (used only in proofs, to
invert `encodeLoop`). -/
def decodeLoop (alphabet : List Char) : List Char → Nat
  | [] => 0
  | c :: rest => alphabet.indexOf c + 62 * decodeLoop alphabet rest

/-- A row of the Cassandra table `urls` (created in `main` with columns
`short_url text PRIMARY KEY, long_url text, created_at timestamp`).
`created_at` is optional because an INSERT may leave the column unset. -/
structure UrlsRow where
  short_url : String
  long_url : String
  created_at : Option Nat
deriving DecidableEq

/-- The serde `Url` payload struct: `short_url: Option<String>, long_url: String`. -/
structure Url where
  short_url : Option String
  long_url : String
deriving DecidableEq

/-- The observable outcome of a handler: `(StatusCode::CREATED, Json(response))`,
`(StatusCode::INTERNAL_SERVER_ERROR, msg)`, `Redirect::to(url)` or
`(StatusCode::NOT_FOUND, "URL not found")`. -/
inductive HttpResponse where
  | created (body : Url)
  | serverError (msg : String)
  | redirect (location : String)
  | notFound
deriving DecidableEq

/-- Lines 62–105: the `POST /shorten` handler.  External effects enter as
parameters: `incrResult` is the outcome of `redis_conn.incr("url_id", 1)`,
`choices` is the RNG stream the secret key determines (see header comment),
`insertResult` the outcome of the Cassandra INSERT, and `st` the current
rows of the `urls` table.  The INSERT statement is
`INSERT INTO urls (short_url, long_url) VALUES (?, ?)`: it binds no value
for `created_at`, so the stored row carries `created_at := none`.
Returns the response together with the table rows after the call. -/
def create_shorten_url (incrResult : Except String Nat) (choices : Nat → Nat)
    (insertResult : Except String Unit) (st : List UrlsRow) (long_url : String) :
    HttpResponse × List UrlsRow :=
  match incrResult with
  | .error _ => (.serverError "Redis Error", st)
  | .ok id =>
    let id_adjusted := id + 14000000
    let short_url := generate_short_url choices id_adjusted
    match insertResult with
    | .error _ => (.serverError "Database Error", st)
    | .ok _ =>
      (.created { short_url := some short_url, long_url := long_url },
        { short_url := short_url, long_url := long_url, created_at := none } :: st)

/-- Lines 108–127: the `GET /:short_url` handler.  `queryOk` is whether the
Cassandra SELECT itself succeeded; on success the zero-or-one matching row
(primary-key lookup, `single_row_typed::<UrlRow>` in the source) decides
between a redirect and 404. -/
def redirect_to_long_url (queryOk : Bool) (st : List UrlsRow) (short : String) :
    HttpResponse :=
  if queryOk then
    match st.find? (fun r => r.short_url == short) with
    | some r => .redirect r.long_url
    | none => .notFound
  else
    .serverError "Database Error"

/-- Overwriting position `i` replaces one occurrence of `l[i]` by `b`
in the multiset of elements, stated additively on counts. -/
theorem count_set_add (b x : Char) :
    ∀ (l : List Char) (i : Nat) (a : Char), l.get? i = some a →
      (l.set i b).count x + (if a = x then 1 else 0)
        = l.count x + (if b = x then 1 else 0) := by
  intro l
  induction l with
  | nil => intro i a ha; simp at ha
  | cons c t ih =>
    intro i a ha
    cases i with
    | zero =>
      simp only [List.get?_cons_zero, Option.some.injEq] at ha
      subst ha
      simp only [List.set_cons_zero, List.count_cons]
      by_cases h1 : c = x <;> by_cases h2 : b = x <;> simp [h1, h2]
    | succ n =>
      simp only [List.get?_cons_succ] at ha
      have := ih n a ha
      simp only [List.set_cons_succ, List.count_cons]
      by_cases h2 : c = x <;> simp [h2] <;> omega

theorem listSwap_of_get? {l : List Char} {i j : Nat} {a b : Char}
    (hi : l.get? i = some a) (hj : l.get? j = some b) :
    listSwap l i j = (l.set i b).set j a := by
  unfold listSwap
  rw [hi, hj]

theorem listSwap_none_left {l : List Char} {i j : Nat} (hi : l.get? i = none) :
    listSwap l i j = l := by
  unfold listSwap
  rw [hi]

theorem listSwap_none_right {l : List Char} {i j : Nat} (hj : l.get? j = none) :
    listSwap l i j = l := by
  unfold listSwap
  rw [hj]
  cases hi : l.get? i <;> rfl

/-- A swap of two in-range positions is a permutation of the list. -/
theorem listSwap_perm (l : List Char) (i j : Nat) : (listSwap l i j).Perm l := by
  cases hi : l.get? i with
  | none => rw [listSwap_none_left hi]
  | some a =>
    cases hj : l.get? j with
    | none => rw [listSwap_none_right hj]
    | some b =>
      obtain ⟨hj', hb⟩ := List.get?_eq_some.mp hj
      rw [listSwap_of_get? hi hj, List.perm_iff_count]
      intro x
      have hj2 : j < (l.set i b).length := by simpa using hj'
      have hjs : (l.set i b).get? j = some ((l.set i b).get ⟨j, hj2⟩) :=
        List.get?_eq_some.mpr ⟨hj2, rfl⟩
      have hget2 : (l.set i b).get ⟨j, hj2⟩ = b := by
        rw [List.get_eq_getElem, List.getElem_set]
        split
        · rfl
        · exact hb
      rw [hget2] at hjs
      have e1 := count_set_add a x (l.set i b) j b hjs
      have e2 := count_set_add b x l i a hi
      omega

/-- Every pass of the Fisher–Yates loop permutes the list. -/
theorem shuffleGo_perm (choices : Nat → Nat) :
    ∀ (n : Nat) (l : List Char), (shuffleGo choices l n).Perm l
  | 0, _ => List.Perm.refl _
  | n + 1, l =>
    (shuffleGo_perm choices n _).trans (listSwap_perm l (n + 1) (choices (n + 1) % (n + 2)))

/-- The call `alphabet.shuffle(&mut rng)` returns a permutation of the alphabet,
whichever values the RNG produces. -/
theorem shuffle_perm (choices : Nat → Nat) (l : List Char) :
    (shuffle choices l).Perm l :=
  shuffleGo_perm choices (l.length - 1) l

theorem base_alphabet_length : base_alphabet.length = 62 := by decide

theorem base_alphabet_nodup : base_alphabet.Nodup := by decide

theorem shuffle_base_length (choices : Nat → Nat) :
    (shuffle choices base_alphabet).length = 62 :=
  (shuffle_perm choices base_alphabet).length_eq.trans base_alphabet_length

theorem shuffle_base_nodup (choices : Nat → Nat) :
    (shuffle choices base_alphabet).Nodup :=
  ((shuffle_perm choices base_alphabet).symm).nodup base_alphabet_nodup

theorem shuffle_base_mem (choices : Nat → Nat) {c : Char}
    (h : c ∈ shuffle choices base_alphabet) : c ∈ base_alphabet :=
  (shuffle_perm choices base_alphabet).mem_iff.mp h

theorem encodeLoop_zero (a : List Char) : encodeLoop a 0 = [] := by
  rw [encodeLoop]
  simp

theorem encodeLoop_pos (a : List Char) {id : Nat} (h : id ≠ 0) :
    encodeLoop a id = a.getD (id % 62) 'a' :: encodeLoop a (id / 62) := by
  rw [encodeLoop]
  simp [h]

theorem encodeLoop_eq_nil_iff (a : List Char) (id : Nat) :
    encodeLoop a id = [] ↔ id = 0 := by
  constructor
  · intro h
    by_contra hid
    rw [encodeLoop_pos a hid] at h
    exact List.cons_ne_nil _ _ h
  · intro h; rw [h, encodeLoop_zero]

/-- Decoding inverts the base-62 digit loop whenever the alphabet is a
62-element duplicate-free list. -/
theorem decodeLoop_encodeLoop (a : List Char) (ha : a.length = 62) (hn : a.Nodup) :
    ∀ id : Nat, decodeLoop a (encodeLoop a id) = id := by
  intro id
  induction id using Nat.strong_induction_on with
  | _ id ih =>
    by_cases h : id = 0
    · rw [h, encodeLoop_zero]; rfl
    · rw [encodeLoop_pos a h]
      have hm : id % 62 < a.length := by rw [ha]; exact Nat.mod_lt _ (by decide)
      simp only [decodeLoop]
      rw [List.getD_eq_getElem a 'a' hm, List.indexOf_getElem hn _ hm]
      rw [ih (id / 62) (Nat.div_lt_self (Nat.pos_of_ne_zero h) (by decide))]
      exact Nat.mod_add_div id 62

/-- Each emitted digit is an element of the alphabet. -/
theorem encodeLoop_mem (a : List Char) (ha : a.length = 62) :
    ∀ (id : Nat) (c : Char), c ∈ encodeLoop a id → c ∈ a := by
  intro id
  induction id using Nat.strong_induction_on with
  | _ id ih =>
    intro c hc
    by_cases h : id = 0
    · rw [h, encodeLoop_zero] at hc
      simp at hc
    · rw [encodeLoop_pos a h] at hc
      have hm : id % 62 < a.length := by rw [ha]; exact Nat.mod_lt _ (by decide)
      rcases List.mem_cons.mp hc with hc | hc
      · rw [hc, List.getD_eq_getElem a 'a' hm]
        exact List.getElem_mem hm
      · exact ih (id / 62) (Nat.div_lt_self (Nat.pos_of_ne_zero h) (by decide)) c hc

/-- The digit count does not depend on the alphabet. -/
theorem encodeLoop_length_indep (a b : List Char) :
    ∀ id : Nat, (encodeLoop a id).length = (encodeLoop b id).length := by
  intro id
  induction id using Nat.strong_induction_on with
  | _ id ih =>
    by_cases h : id = 0
    · rw [h, encodeLoop_zero, encodeLoop_zero]
    · rw [encodeLoop_pos a h, encodeLoop_pos b h]
      simp only [List.length_cons]
      rw [ih (id / 62) (Nat.div_lt_self (Nat.pos_of_ne_zero h) (by decide))]

/-- An identifier below `62 ^ n` yields at most `n` digits. -/
theorem encodeLoop_length_le (a : List Char) :
    ∀ (id n : Nat), id < 62 ^ n → (encodeLoop a id).length ≤ n := by
  intro id
  induction id using Nat.strong_induction_on with
  | _ id ih =>
    intro n hlt
    by_cases h : id = 0
    · rw [h, encodeLoop_zero]; exact Nat.zero_le n
    · cases n with
      | zero =>
        simp at hlt
        exact absurd hlt h
      | succ m =>
        rw [encodeLoop_pos a h]
        simp only [List.length_cons]
        have hdiv : id / 62 < 62 ^ m := by
          rw [Nat.div_lt_iff_lt_mul (by decide : 0 < 62)]
          calc id < 62 ^ (m + 1) := hlt
          _ = 62 ^ m * 62 := by rw [Nat.pow_succ]
        have := ih (id / 62) (Nat.div_lt_self (Nat.pos_of_ne_zero h) (by decide)) m hdiv
        omega

/-- Decoding also inverts the empty-string fix-up of lines 54–56: the digit
list the handler finally reverses determines the identifier. -/
theorem decodeLoop_emitted (a : List Char) (ha : a.length = 62) (hn : a.Nodup)
    (id : Nat) :
    decodeLoop a (if (encodeLoop a id).isEmpty then [a.getD 0 'a']
      else encodeLoop a id) = id := by
  by_cases h : id = 0
  · subst h
    rw [encodeLoop_zero]
    simp only [List.isEmpty_nil, if_pos]
    have h0 : (0 : Nat) < a.length := by rw [ha]; decide
    simp only [decodeLoop]
    rw [List.getD_eq_getElem a 'a' h0, List.indexOf_getElem hn 0 h0]
  · have hne : encodeLoop a id ≠ [] := fun hh => h ((encodeLoop_eq_nil_iff a id).mp hh)
    rw [if_neg (by simpa using hne)]
    exact decodeLoop_encodeLoop a ha hn id

/-- Two equal short URLs force equal identifiers: the encoder is injective. -/
theorem generate_short_url_faithful (choices : Nat → Nat) (id1 id2 : Nat)
    (h : generate_short_url choices id1 = generate_short_url choices id2) :
    id1 = id2 := by
  have ha : (shuffle choices base_alphabet).length = 62 := shuffle_base_length choices
  have hn : (shuffle choices base_alphabet).Nodup := shuffle_base_nodup choices
  simp only [generate_short_url] at h
  have hdata := congrArg String.data h
  simp only at hdata
  have hrev := List.reverse_injective hdata
  have hdec := congrArg (decodeLoop (shuffle choices base_alphabet)) hrev
  rwa [decodeLoop_emitted _ ha hn id1, decodeLoop_emitted _ ha hn id2] at hdec

/-- C1: for every fixed secret key (i.e. every RNG stream the key determines)
and all 64-bit identifiers `id1 ≠ id2`, `generate_short_url` returns
different short codes: the encoder is injective over the whole u64 domain. -/
theorem encoder_injective (choices : Nat → Nat) (id1 id2 : Nat)
    (_h1 : id1 < 2 ^ 64) (_h2 : id2 < 2 ^ 64) (hne : id1 ≠ id2) :
    generate_short_url choices id1 ≠ generate_short_url choices id2 :=
  fun hh => hne (generate_short_url_faithful choices id1 id2 hh)

theorem encoder_injective_witness :
    generate_short_url (fun _ => 0) 1 ≠ generate_short_url (fun _ => 0) 2 :=
  encoder_injective (fun _ => 0) 1 2 (by decide) (by decide) (by decide)

/-- C2: for a fixed secret key and identifier, any two calls of
`generate_short_url` return the same string.  In the embedding the alphabet
permutation is rebuilt inside every call from the RNG stream of the key, so
the function is pure and two evaluations with the same key and id coincide. -/
theorem encoder_deterministic (choices : Nat → Nat) (id : Nat) (s1 s2 : String)
    (h1 : s1 = generate_short_url choices id)
    (h2 : s2 = generate_short_url choices id) : s1 = s2 :=
  h1.trans h2.symm

theorem encoder_deterministic_witness :
    generate_short_url (fun _ => 0) 5 = generate_short_url (fun _ => 0) 5 :=
  encoder_deterministic (fun _ => 0) 5 _ _ rfl rfl

/-- C8: for every secret key, `generate_short_url key 0` is exactly the
one-character string holding index 0 of the permuted alphabet, hence
non-empty. -/
theorem encode_zero_nonempty (choices : Nat → Nat) :
    generate_short_url choices 0
        = String.mk [(shuffle choices base_alphabet).getD 0 'a']
      ∧ generate_short_url choices 0 ≠ "" := by
  have hmk : generate_short_url choices 0
      = String.mk [(shuffle choices base_alphabet).getD 0 'a'] := by
    simp [generate_short_url, encodeLoop_zero]
  refine ⟨hmk, ?_⟩
  intro hh
  have hlen := congrArg String.length hh
  rw [hmk] at hlen
  simp [String.length] at hlen

/-- C9: every character of every produced short code is one of the 62
symbols of the base alphabet (a lowercase letter, an uppercase letter or a
digit). -/
theorem alphabet_closure (choices : Nat → Nat) (id : Nat) (c : Char)
    (hc : c ∈ (generate_short_url choices id).data) :
    c ∈ base_alphabet
      ∧ (c.isLower = true ∨ c.isUpper = true ∨ c.isDigit = true) := by
  obtain ⟨A, hA⟩ : ∃ A, shuffle choices base_alphabet = A := ⟨_, rfl⟩
  have ha : A.length = 62 := by rw [← hA]; exact shuffle_base_length choices
  have hsub : ∀ x, x ∈ A → x ∈ base_alphabet := by
    intro x hx
    refine shuffle_base_mem choices ?_
    rw [hA]
    exact hx
  have hmem : c ∈ base_alphabet := by
    simp only [generate_short_url, hA] at hc
    rw [List.mem_reverse] at hc
    by_cases he : (encodeLoop A id).isEmpty
    · rw [if_pos he] at hc
      have h0 : (0 : Nat) < A.length := by rw [ha]; decide
      rcases List.mem_singleton.mp hc with rfl
      rw [List.getD_eq_getElem _ 'a' h0]
      exact hsub _ (List.getElem_mem h0)
    · rw [if_neg he] at hc
      exact hsub _ (encodeLoop_mem A ha id c hc)
  clear hc hA ha hsub
  refine ⟨hmem, ?_⟩
  have hall : ∀ x ∈ base_alphabet,
      x.isLower = true ∨ x.isUpper = true ∨ x.isDigit = true := by decide
  exact hall c hmem

theorem alphabet_closure_witness :
    'b' ∈ base_alphabet
      ∧ ('b'.isLower = true ∨ 'b'.isUpper = true ∨ 'b'.isDigit = true) :=
  alphabet_closure (fun _ => 0) 0 'b'
    (by simp [generate_short_url, encodeLoop]; decide)

/-- C10: `generate_short_url` terminates on every u64 input (it is a total
Lean function, the encoding loop decreasing under division by 62), and for
`id < 2 ^ 64` the produced code has at most 11 characters, so the loop runs
at most 11 iterations. -/
theorem encoder_bounded_length (choices : Nat → Nat) (id : Nat)
    (h : id < 2 ^ 64) : (generate_short_url choices id).length ≤ 11 := by
  have hq : id < 62 ^ 11 := lt_of_lt_of_le h (by norm_num)
  have hd := encodeLoop_length_le (shuffle choices base_alphabet) id 11 hq
  simp only [generate_short_url]
  by_cases he : (encodeLoop (shuffle choices base_alphabet) id).isEmpty
  · simp [he, String.length]
  · simp only [he, if_neg, Bool.false_eq_true, not_false_iff]
    simpa [String.length] using hd

theorem encoder_bounded_length_witness :
    (generate_short_url (fun _ => 0) (2 ^ 64 - 1)).length ≤ 11 :=
  encoder_bounded_length (fun _ => 0) (2 ^ 64 - 1) (by norm_num)

/-- C3: if `create(longUrl)` succeeds with a body `{code, longUrl}`, then
resolving `code` against the store state the creation produced redirects to
exactly that `longUrl`. -/
theorem create_resolve_round_trip (incr : Except String Nat)
    (choices : Nat → Nat) (ins : Except String Unit) (st st2 : List UrlsRow)
    (url code : String) (body : Url)
    (h : create_shorten_url incr choices ins st url = (HttpResponse.created body, st2))
    (hc : body.short_url = some code) :
    body.long_url = url
      ∧ redirect_to_long_url true st2 code = HttpResponse.redirect url := by
  cases incr with
  | error e => simp [create_shorten_url] at h
  | ok id =>
    cases ins with
    | error e => simp [create_shorten_url] at h
    | ok u =>
      simp only [create_shorten_url, Prod.mk.injEq, HttpResponse.created.injEq] at h
      obtain ⟨hb, hst⟩ := h
      subst hb
      have hcode : generate_short_url choices (id + 14000000) = code := by
        simpa using hc
      subst hcode
      refine ⟨rfl, ?_⟩
      rw [← hst]
      have hfind : List.find?
          (fun r => r.short_url == generate_short_url choices (id + 14000000))
          ({ short_url := generate_short_url choices (id + 14000000),
             long_url := url, created_at := none } :: st)
          = some { short_url := generate_short_url choices (id + 14000000),
                   long_url := url, created_at := none } := by
        refine List.find?_cons_of_pos _ ?_
        simp
      unfold redirect_to_long_url
      rw [if_pos rfl, hfind]

theorem create_resolve_round_trip_witness :
    (Url.mk (some (generate_short_url (fun _ => 0) (1 + 14000000)))
        "https://example.com").long_url = "https://example.com"
      ∧ redirect_to_long_url true
          [{ short_url := generate_short_url (fun _ => 0) (1 + 14000000),
             long_url := "https://example.com", created_at := none }]
          (generate_short_url (fun _ => 0) (1 + 14000000))
        = HttpResponse.redirect "https://example.com" :=
  create_resolve_round_trip (Except.ok 1) (fun _ => 0) (Except.ok ()) [] _
    "https://example.com" _ _ rfl rfl

/-- C4: if the Redis increment fails, `create` answers
`500 "Redis Error"` and the durable store is unchanged — and the result is
the same whatever the RNG stream or the Cassandra outcome would have been,
i.e. neither encoding nor persistence influences it. -/
theorem create_alloc_failure_no_write (e : String) (choices : Nat → Nat)
    (ins : Except String Unit) (st : List UrlsRow) (url : String) :
    create_shorten_url (Except.error e) choices ins st url
      = (HttpResponse.serverError "Redis Error", st) := rfl

/-- C5 (amended): a successful `create` persists exactly one new row holding
the short code and the long URL; the INSERT binds no `created_at` value, so
that column is left unset rather than set to the creation time. -/
theorem create_persists_record (id : Nat) (choices : Nat → Nat)
    (st : List UrlsRow) (url : String) :
    create_shorten_url (Except.ok id) choices (Except.ok ()) st url
      = (HttpResponse.created
          { short_url := some (generate_short_url choices (id + 14000000)),
            long_url := url },
        { short_url := generate_short_url choices (id + 14000000),
          long_url := url, created_at := none } :: st) := rfl

/-- C5 (counterexample): the concrete successful creation of
`"https://example.com"` under allocated id 1 stores a row whose
`created_at` field is `none`, not a creation timestamp. -/
theorem create_persists_record_counterexample :
    (create_shorten_url (Except.ok 1) (fun _ => 0) (Except.ok ()) []
        "https://example.com").2
      = [{ short_url := generate_short_url (fun _ => 0) (1 + 14000000),
           long_url := "https://example.com", created_at := none }]
    ∧ ((create_shorten_url (Except.ok 1) (fun _ => 0) (Except.ok ()) []
        "https://example.com").2.headD
          { short_url := "", long_url := "", created_at := none }).created_at
      = none := ⟨rfl, rfl⟩

/-- C6 (amended): the first allocated identifier 1 is offset to
`1 + 14_000_000 = 14_000_001`, and for every secret key the encoder turns it
into a 4-character code over the 62-symbol alphabet (the digit count is
independent of the alphabet permutation); being a pure function of key and
id, the code is stable across repeated calls. -/
theorem first_id_code_length (choices : Nat → Nat) (st : List UrlsRow)
    (url : String) :
    (create_shorten_url (Except.ok 1) choices (Except.ok ()) st url).1
      = HttpResponse.created
          { short_url := some (generate_short_url choices (1 + 14000000)),
            long_url := url }
    ∧ (generate_short_url choices (1 + 14000000)).length = 4 := by
  refine ⟨rfl, ?_⟩
  obtain ⟨A, hA⟩ : ∃ A, shuffle choices base_alphabet = A := ⟨_, rfl⟩
  simp only [generate_short_url, hA]
  have hne : encodeLoop A (1 + 14000000) ≠ [] := by
    rw [Ne, encodeLoop_eq_nil_iff]
    decide
  rw [if_neg (by simpa using hne)]
  have hlen : (encodeLoop A (1 + 14000000)).length
      = (encodeLoop base_alphabet (1 + 14000000)).length :=
    encodeLoop_length_indep A base_alphabet (1 + 14000000)
  have hbase : (encodeLoop base_alphabet (1 + 14000000)).length = 4 := by
    rw [encodeLoop_pos base_alphabet (by decide), encodeLoop_pos base_alphabet (by decide),
      encodeLoop_pos base_alphabet (by decide), encodeLoop_pos base_alphabet (by decide)]
    norm_num
    rw [encodeLoop_zero]
    rfl
  simp [String.length, hlen, hbase]

/-- C6 (counterexample): with the offset identifier 14,000,001 of the
scenario, the produced code has 4 characters, not the 5 to 6 the spec
states. -/
theorem first_id_code_length_counterexample :
    ¬ (5 ≤ (generate_short_url (fun _ => 0) (1 + 14000000)).length
        ∧ (generate_short_url (fun _ => 0) (1 + 14000000)).length ≤ 6) := by
  have h4 : (generate_short_url (fun _ => 0) (1 + 14000000)).length = 4 := by
    simp [generate_short_url, encodeLoop]
  omega

/-- C7: `resolve` answers a server error exactly when the store query fails;
on a successful query it redirects to the stored `long_url` when a row with
the requested code exists, and answers 404 exactly when none does. -/
theorem resolve_characterization (queryOk : Bool) (st : List UrlsRow)
    (short : String) :
    (redirect_to_long_url queryOk st short = HttpResponse.serverError "Database Error"
        ↔ queryOk = false)
    ∧ (queryOk = true →
        ((st.find? (fun r => r.short_url == short) = none
            ∧ redirect_to_long_url queryOk st short = HttpResponse.notFound)
          ∨ (∃ r, st.find? (fun r => r.short_url == short) = some r
              ∧ r.short_url = short
              ∧ redirect_to_long_url queryOk st short
                  = HttpResponse.redirect r.long_url))) := by
  cases queryOk with
  | false => simp [redirect_to_long_url]
  | true =>
    cases hf : st.find? (fun r => r.short_url == short) with
    | none =>
      refine ⟨by simp [redirect_to_long_url, hf], fun _ => Or.inl ⟨rfl, ?_⟩⟩
      simp [redirect_to_long_url, hf]
    | some r =>
      have hkey : r.short_url = short := by
        have := List.find?_some hf
        simpa using this
      refine ⟨by simp [redirect_to_long_url, hf], fun _ => Or.inr ⟨r, rfl, hkey, ?_⟩⟩
      simp [redirect_to_long_url, hf]

theorem resolve_characterization_witness :
    (List.find? (fun r => r.short_url == "x") ([] : List UrlsRow) = none
        ∧ redirect_to_long_url true [] "x" = HttpResponse.notFound)
      ∨ (∃ r, List.find? (fun r => r.short_url == "x") ([] : List UrlsRow) = some r
          ∧ r.short_url = "x"
          ∧ redirect_to_long_url true [] "x" = HttpResponse.redirect r.long_url) :=
  (resolve_characterization true [] "x").2 rfl

end UrlShortener
